import Mathlib

/-!
Verification of the grid-maze search toolkit (src/section3.rs, src/section4.rs).

Shallow embedding conventions:
* Rust `usize` coordinates are `Nat`.  `usize::checked_add_signed` returns
  `None` on underflow below zero; the overflow branch at `usize::MAX` is
  unreachable here because every coordinate handled by the programs is
  bounded by the grid size, so it is not modelled.
* Rust `i64` scores are `Int` (all values reachable by the programs are far
  below the 64-bit bound, so wrap-around is unreachable and not modelled).
* The point grids `[[i64; W]; H]` are total functions `Nat → Nat → Int`;
  only indices inside the grid are ever read by the embedded code paths
  that the theorems talk about.
* `rand::thread_rng` draws are explicit oracle arguments; `gen_range (0..n)`
  applied to an oracle value `v` is modelled as `v % n`, which realises the
  range contract of the Rust API.
* `std::time::Instant` polling (`TimeKeeper::is_time_over`) is modelled by
  a poll counter together with a `deadline : Nat`: the k-th poll returns
  `deadline ≤ k`.  This is exactly the class of monotone boolean poll
  sequences that a real `TimeKeeper` can produce.
* A Rust `panic!`/`unwrap` on `None` is modelled as `Option.getD`(with the
  stated default) when the branch is unreachable under the theorem's
  hypotheses, or as propagating `none` where the claim concerns the result.
-/

namespace SearchMaze

/-- `usize::checked_add_signed`: `none` on underflow below zero. -/
def checkedAddSigned (n : Nat) (d : Int) : Option Nat :=
  if 0 ≤ (n : Int) + d then some ((n : Int) + d).toNat else none

/-- The `dx` direction table `[1, -1, 0, 0]` shared by both source files. -/
def dxl : List Int := [1, -1, 0, 0]

/-- The `dy` direction table `[0, 0, 1, -1]` shared by both source files. -/
def dyl : List Int := [0, 0, 1, -1]

/-- Zero one cell of a point grid (`*point = 0` after indexing `[y0][x0]`). -/
def zeroAt (p : Nat → Nat → Int) (y0 x0 : Nat) : Nat → Nat → Int :=
  fun y x => if y = y0 ∧ x = x0 then 0 else p y x

/-- Total value remaining on the `H × W` grid. -/
def gridSum (H W : Nat) (p : Nat → Nat → Int) : Int :=
  ∑ y ∈ Finset.range H, ∑ x ∈ Finset.range W, p y x

/-- `INF` constant of both source files. -/
def INF : Int := 1000000000

end SearchMaze

namespace Section3

open SearchMaze

/-- `Coord` of section3.rs. -/
structure Coord where
  x : Nat
  y : Nat
deriving Repr, DecidableEq

/-- `MazeState` of section3.rs.  The grid dimensions and `END_TURN` are the
constants `HEIGHT = 30`, `WIDTH = 30`, `END_TURN = 100` in the source; they
are passed as parameters `H W ET` to the operations below so that the
spec's concrete `3 × 3` scenario is also an instance. -/
structure MazeState where
  character : Coord
  game_score : Int
  evaluated_score : Int
  first_action : Option Nat
  points : Nat → Nat → Int
  turn : Nat

/-- `MazeState::is_done`: `turn == END_TURN`. -/
def is_done (ET : Nat) (s : MazeState) : Bool :=
  s.turn == ET

/-- `MazeState::advance`.  Moves with `checked_add_signed(..).unwrap_or(0)`,
collects the destination cell when its value is positive, bumps `turn`. -/
def advance (a : Nat) (s : MazeState) : MazeState :=
  let nx := (checkedAddSigned s.character.x (dxl.getD a 0)).getD 0
  let ny := (checkedAddSigned s.character.y (dyl.getD a 0)).getD 0
  let p := s.points ny nx
  if 0 < p then
    { s with character := ⟨nx, ny⟩, game_score := s.game_score + p,
             points := zeroAt s.points ny nx, turn := s.turn + 1 }
  else
    { s with character := ⟨nx, ny⟩, turn := s.turn + 1 }

/-- `MazeState::legal_actions`: every `act ∈ {0,1,2,3}` whose target,
with out-of-range fallback `H`/`W`, stays inside the grid; in the fixed
order `+x, -x, +y, -y`. -/
def legal_actions (H W : Nat) (s : MazeState) : List Nat :=
  (List.range 4).filter fun act =>
    decide ((checkedAddSigned s.character.y (dyl.getD act 0)).getD H < H) &&
    decide ((checkedAddSigned s.character.x (dxl.getD act 0)).getD W < W)

/-- `MazeState::evaluate_score`: `evaluated_score = game_score`. -/
def evaluate_score (s : MazeState) : MazeState :=
  { s with evaluated_score := s.game_score }

end Section3

namespace Section3

open SearchMaze

/-- Model of `BinaryHeap<MazeState>::peek`: the heap is a list, ordered by
`evaluated_score` (the `Ord` impl of section3.rs compares only that field);
`heapPeek` returns a maximal element (the earliest one among ties — the
Rust heap leaves tie order unspecified, and no theorem below depends on
which maximal element is produced). -/
def heapPeek : List MazeState → Option MazeState
  | [] => none
  | s :: rest =>
    match heapPeek rest with
    | none => some s
    | some m => if s.evaluated_score < m.evaluated_score then some m else some s

/-- Model of `BinaryHeap<MazeState>::pop`: removes the element that
`heapPeek` returns. -/
def heapPop : List MazeState → List MazeState
  | [] => []
  | s :: rest =>
    match heapPeek rest with
    | none => rest
    | some m => if s.evaluated_score < m.evaluated_score then s :: heapPop rest else rest

/-- Model of `BinaryHeap<MazeState>::push` (`cons`; heap order is kept
implicitly by `heapPeek`/`heapPop`). -/
def heapPush (s : MazeState) (h : List MazeState) : List MazeState :=
  s :: h

/-- The child generation step shared by all beam-family searches:
for each legal action, clone, `advance`, `evaluate_score`, and at depth 0
record the action in `first_action`. -/
def expandChildren (H W d : Nat) (now : MazeState) : List MazeState :=
  (legal_actions H W now).map fun a =>
    let ns := evaluate_score (advance a now)
    if d = 0 then { ns with first_action := some a } else ns

/-- Push a batch of children into a heap, in list order (the `for act in
legal_actions` push loop). -/
def pushAll (cs : List MazeState) (h : List MazeState) : List MazeState :=
  cs.foldl (fun acc c => heapPush c acc) h

/-- One step score used by `greedy_action`: clone, advance, evaluate. -/
def gScore (s : MazeState) (a : Nat) : Int :=
  (evaluate_score (advance a s)).evaluated_score

/-- The accumulator loop of `greedy_action` over the legal-action list,
carrying `best_score` (init `-INF`) and `best_action` (init `None`). -/
def greedyLoop (s : MazeState) : List Nat → Int → Option Nat → Option Nat
  | [], _, ba => ba
  | a :: rest, best, ba =>
    if best < gScore s a then greedyLoop s rest (gScore s a) (some a)
    else greedyLoop s rest best ba

/-- `greedy_action` of section3.rs; the final `unwrap` of the Rust source
(which panics when no legal action exists) is modelled by returning the
`Option` itself. -/
def greedy_action (H W : Nat) (s : MazeState) : Option Nat :=
  greedyLoop s (legal_actions H W s) (-INF) none

/-- The scan `for t in (0..=beam_depth).rev() { if !beam[t].is_empty() {
return beam[t].peek()?.first_action } }` of both chokudai variants,
starting at depth `t`. -/
def selectFromDepth (beams : List (List MazeState)) : Nat → Option Nat
  | 0 =>
    if (beams.getD 0 []).isEmpty then none
    else (heapPeek (beams.getD 0 [])).bind MazeState.first_action
  | t + 1 =>
    if (beams.getD (t + 1) []).isEmpty then selectFromDepth beams t
    else (heapPeek (beams.getD (t + 1) [])).bind MazeState.first_action

/-- The `for _ in 0..beam_width` inner loop of `chokudai_search_action` at
depth `t`: peek (break on empty or on a terminal node), pop, expand every
legal action into `beam[t+1]`. -/
def chokudaiInner (H W ET t : Nat) : Nat → List (List MazeState) → List (List MazeState)
  | 0, beams => beams
  | w + 1, beams =>
    match heapPeek (beams.getD t []) with
    | none => beams
    | some now =>
      if is_done ET now then beams
      else
        let beams1 := beams.set t (heapPop (beams.getD t []))
        let beams2 := beams1.set (t + 1) (pushAll (expandChildren H W t now) (beams1.getD (t + 1) []))
        chokudaiInner H W ET t w beams2

/-- One full pass `for t in 0..beam_depth` of `chokudai_search_action`. -/
def chokudaiPass (H W ET bw bd : Nat) (beams : List (List MazeState)) : List (List MazeState) :=
  (List.range bd).foldl (fun bs t => chokudaiInner H W ET t bw bs) beams

/-- The `for _ in 0..beam_number` pass loop of `chokudai_search_action`. -/
def chokudaiPasses (H W ET bw bd : Nat) : Nat → List (List MazeState) → List (List MazeState)
  | 0, beams => beams
  | n + 1, beams => chokudaiPasses H W ET bw bd n (chokudaiPass H W ET bw bd beams)

/-- The `beam_depth + 1` frontiers of `chokudai_search_action` after all
`beam_number` passes, seeded with the query state at depth 0. -/
def chokudaiBeams (H W ET : Nat) (s : MazeState) (bw bd bn : Nat) : List (List MazeState) :=
  chokudaiPasses H W ET bw bd bn ((List.replicate (bd + 1) ([] : List MazeState)).set 0 [s])

/-- `chokudai_search_action` of section3.rs. -/
def chokudai_search_action (H W ET : Nat) (s : MazeState) (bw bd bn : Nat) : Option Nat :=
  selectFromDepth (chokudaiBeams H W ET s bw bd bn) bd

/-- Reference (deadline-free) run of the `for _ in 0..beam_width` inner
loop of `beam_search_with_time_threshold_action` at depth `d`: returns the
next frontier and the number of deadline polls the loop consumes (one per
iteration entered, i.e. one per candidate pop attempt). -/
def pureInner (H W d : Nat) : Nat → List MazeState → List MazeState → List MazeState × Nat
  | 0, _, next => (next, 0)
  | w + 1, nowBeam, next =>
    match heapPeek nowBeam with
    | none => (next, 1)
    | some now =>
      let r := pureInner H W d w (heapPop nowBeam) (pushAll (expandChildren H W d now) next)
      (r.1, r.2 + 1)

/-- The frontier and cumulative poll count of
`beam_search_with_time_threshold_action` after `k` fully completed rounds
(outer-loop iterations), starting from the seeded frontier `[s]`. -/
def FP (H W bw : Nat) (s : MazeState) : Nat → List MazeState × Nat
  | 0 => ([s], 0)
  | k + 1 =>
    let fp := FP H W bw s k
    let r := pureInner H W k bw fp.1 []
    (r.1, fp.2 + r.2)

/-- The timed inner loop of `beam_search_with_time_threshold_action`:
polls the deadline once per iteration (`if time_keeper.is_time_over()`),
returning `none` to signal the early `return best_state.first_action`
path, otherwise the next frontier with the updated poll counter. -/
def bstInner (H W d deadline : Nat) : Nat → List MazeState → List MazeState → Nat →
    Option (List MazeState × Nat)
  | 0, _, next, pc => some (next, pc)
  | w + 1, nowBeam, next, pc =>
    if deadline ≤ pc then none
    else
      match heapPeek nowBeam with
      | none => some (next, pc + 1)
      | some now =>
        bstInner H W d deadline w (heapPop nowBeam)
          (pushAll (expandChildren H W d now) next) (pc + 1)

/-- The `for d in 0..` outer loop of
`beam_search_with_time_threshold_action`.  `best` is `best_state` (the
Rust initial value is a fresh random state whose `first_action` is `None`
and returning it unwraps `None`, i.e. panics: both are modelled by
`none`).  `fuel` bounds the unbounded Rust loop; every theorem below
supplies enough fuel for the run it describes.  An empty new frontier
makes `now_beam.peek().unwrap()` panic, modelled as `none`. -/
def bstOuter (H W ET bw deadline : Nat) :
    Nat → List MazeState → Option MazeState → Nat → Nat → Option Nat
  | 0, _, _, _, _ => none
  | fuel + 1, nowBeam, best, pc, d =>
    match bstInner H W d deadline bw nowBeam [] pc with
    | none => best.bind MazeState.first_action
    | some (nextBeam, pc') =>
      match heapPeek nextBeam with
      | none => none
      | some b =>
        if is_done ET b then b.first_action
        else bstOuter H W ET bw deadline fuel nextBeam (some b) pc' (d + 1)

/-- `beam_search_with_time_threshold_action` of section3.rs, with the
deadline poll model described at the top of the file. -/
def beam_search_with_time_threshold_action (H W ET bw deadline fuel : Nat)
    (s : MazeState) : Option Nat :=
  bstOuter H W ET bw deadline fuel [s] none 0 0

/-- An episode: fold `advance` over a list of actions. -/
def runEpisode (acts : List Nat) (s : MazeState) : MazeState :=
  acts.foldl (fun st a => advance a st) s

/-- The driver contract: every action of the episode is legal in the state
it is applied to. -/
def legalEpisodeB (H W : Nat) : List Nat → MazeState → Bool
  | [], _ => true
  | a :: rest, s => decide (a ∈ legal_actions H W s) && legalEpisodeB H W rest (advance a s)

end Section3

namespace Section4

open SearchMaze

/-- `HEIGHT` of section4.rs. -/
def HEIGHT : Nat := 5

/-- `WIDTH` of section4.rs. -/
def WIDTH : Nat := 5

/-- `END_TURN` of section4.rs. -/
def END_TURN : Nat := 5

/-- `CHARACTER_N` of section4.rs. -/
def CHARACTER_N : Nat := 3

/-- `Coord` of section4.rs. -/
structure Coord where
  x : Nat
  y : Nat
deriving Repr, DecidableEq

/-- `AutoMoveMazeState` of section4.rs.  `characters` is the fixed-size
array `[Coord; CHARACTER_N]`, modelled as a list (length `CHARACTER_N` for
every state the programs build). -/
structure AutoMoveMazeState where
  game_score : Int
  evaluated_score : Int
  points : Nat → Nat → Int
  turn : Nat
  characters : List Coord

/-- `AutoMoveMazeState::is_done`: `turn == END_TURN`. -/
def is_done (s : AutoMoveMazeState) : Bool :=
  s.turn == END_TURN

/-- `AutoMoveMazeState::set_character`. -/
def set_character (s : AutoMoveMazeState) (id y x : Nat) : AutoMoveMazeState :=
  { s with characters := s.characters.set id ⟨x, y⟩ }

/-- `AutoMoveMazeState::init_characters`: each character gets a fresh
uniformly random coordinate; `rv i` supplies the i-th character's two
`gen_range` draws `(y, x)`. -/
def init_characters (s : AutoMoveMazeState) (rv : Nat → Nat × Nat) : AutoMoveMazeState :=
  let cs := (List.range CHARACTER_N).foldl
    (fun cs i => cs.set i ⟨(rv i).2 % WIDTH, (rv i).1 % HEIGHT⟩) s.characters
  { s with characters := cs }

/-- `AutoMoveMazeState::transition`: one uniformly random character moved
to a fresh uniformly random coordinate; `t = (id, y, x)` supplies the
three `gen_range` draws of the call. -/
def transition (t : Nat × Nat × Nat) (s : AutoMoveMazeState) : AutoMoveMazeState :=
  { s with characters := s.characters.set (t.1 % CHARACTER_N) ⟨t.2.2 % WIDTH, t.2.1 % HEIGHT⟩ }

/-- One iteration of the best-adjacent-cell selection loop of
`AutoMoveMazeState::move_player`: `st = (best_point, best_action_index)`,
updated when the candidate cell is in bounds and strictly better. -/
def bestStep (p : Nat → Nat → Int) (c : Coord) (st : Int × Nat) (action : Nat) :
    Int × Nat :=
  let ty := (checkedAddSigned c.y (dyl.getD action 0)).getD HEIGHT
  let tx := (checkedAddSigned c.x (dxl.getD action 0)).getD WIDTH
  if ty < HEIGHT ∧ tx < WIDTH then
    if st.1 < p ty tx then (p ty tx, action) else st
  else st

/-- The best-adjacent-cell selection loop of
`AutoMoveMazeState::move_player`: over `action in 0..4`, keep the first
strictly improving in-bounds candidate, starting from
`(best_point, best_action_index) = (-INF, 0)`. -/
def bestActionIndex (p : Nat → Nat → Int) (c : Coord) : Nat :=
  ((List.range 4).foldl (bestStep p c) ((-INF : Int), (0 : Nat))).2

/-- The final coordinate update of `move_player`.  The Rust source applies
`checked_add_signed(..).unwrap()`; the panicking `None` branch (modelled
by the `getD 0` fallback) is unreachable whenever the character is inside
the grid and the grid values are non-negative, which the invariant lemmas
below establish. -/
def movePlayerCoord (p : Nat → Nat → Int) (c : Coord) : Coord :=
  let bi := bestActionIndex p c
  ⟨(checkedAddSigned c.x (dxl.getD bi 0)).getD 0,
   (checkedAddSigned c.y (dyl.getD bi 0)).getD 0⟩

/-- The `for id in 0..CHARACTER_N { self.move_player(id) }` loop of
`AutoMoveMazeState::advance` (each `move_player(id)` reads only
`self.points` and `self.characters[id]` and writes only
`self.characters[id]`). -/
def moveAll (s : AutoMoveMazeState) : List Coord :=
  (List.range CHARACTER_N).foldl
    (fun cs id => cs.set id (movePlayerCoord s.points (cs.getD id ⟨0, 0⟩)))
    s.characters

/-- The collection loop of `AutoMoveMazeState::advance`: for each
character, unconditionally add the occupied cell's value to the score and
zero the cell. -/
def collectAll (chars : List Coord) (sc : Int) (p : Nat → Nat → Int) :
    Int × (Nat → Nat → Int) :=
  chars.foldl (fun acc c => (acc.1 + acc.2 c.y c.x, zeroAt acc.2 c.y c.x)) (sc, p)

/-- `AutoMoveMazeState::advance`: greedy auto-move of every character,
then collection, then `turn += 1`. -/
def advance (s : AutoMoveMazeState) : AutoMoveMazeState :=
  let chars := moveAll s
  let r := collectAll chars s.game_score s.points
  { s with characters := chars, game_score := r.1, points := r.2, turn := s.turn + 1 }

/-- The `while !state.is_done() { state.advance() }` playout of
`AutoMoveMazeState::get_score`, with fuel (`END_TURN` steps suffice for
every state whose `turn ≤ END_TURN`, which covers every state the
programs build; on larger `turn` the Rust loop never terminates). -/
def rolloutLoop : Nat → AutoMoveMazeState → AutoMoveMazeState
  | 0, s => s
  | f + 1, s => if is_done s then s else rolloutLoop f (advance s)

/-- `AutoMoveMazeState::get_score` (with `is_print = false`): clone, zero
the cells currently under the characters, auto-advance to termination,
return the final `game_score`. -/
def get_score (s : AutoMoveMazeState) : Int :=
  let p0 := s.characters.foldl (fun p c => zeroAt p c.y c.x) s.points
  (rolloutLoop END_TURN { s with points := p0 }).game_score

/-- `transition` at loop iteration `i`, with `trans` supplying the random
draws of every iteration. -/
def transitionAt (trans : Nat → Nat × Nat × Nat) (i : Nat) (s : AutoMoveMazeState) :
    AutoMoveMazeState :=
  transition (trans i) s

/-- The loop body of `hill_climb`, acting on the pair
`(now_state, best_score)`: perturb, score, accept iff strictly greater. -/
def hcStep (trans : Nat → Nat × Nat × Nat) (i : Nat)
    (st : AutoMoveMazeState × Int) : AutoMoveMazeState × Int :=
  let next := transitionAt trans i st.1
  let nscore := get_score next
  if st.2 < nscore then (next, nscore) else st

/-- `(now_state, best_score)` of `hill_climb` after `k` loop iterations. -/
def hcSeq (trans : Nat → Nat × Nat × Nat) (rv : Nat → Nat × Nat)
    (s : AutoMoveMazeState) : Nat → AutoMoveMazeState × Int
  | 0 => (init_characters s rv, get_score (init_characters s rv))
  | k + 1 => hcStep trans k (hcSeq trans rv s k)

/-- `hill_climb` of section4.rs (`number` loop iterations). -/
def hill_climb (s : AutoMoveMazeState) (number : Nat) (rv : Nat → Nat × Nat)
    (trans : Nat → Nat × Nat × Nat) : AutoMoveMazeState :=
  (hcSeq trans rv s number).1

/-- The loop body of `simulated_annealing`, acting on
`((now_state, now_score), (best_state, best_score))`.  `force i ns xs`
is the boolean outcome `is_force_next` of iteration `i` (the floating
point comparison `probability > rng.gen_range(0.0..1.0)` computed from
`now_score = ns` and `next_score = xs`); `saForce` below instantiates it
with the source's formula over the reals. -/
def saStep (trans : Nat → Nat × Nat × Nat) (force : Nat → Int → Int → Bool) (i : Nat)
    (st : (AutoMoveMazeState × Int) × (AutoMoveMazeState × Int)) :
    (AutoMoveMazeState × Int) × (AutoMoveMazeState × Int) :=
  let next := transitionAt trans i st.1.1
  let xs := get_score next
  let nowP := if st.1.2 < xs || force i st.1.2 xs then (next, xs) else st.1
  let bestP := if st.2.2 < xs then (next, xs) else st.2
  (nowP, bestP)

/-- `((now_state, now_score), (best_state, best_score))` of
`simulated_annealing` after `k` loop iterations. -/
def saSeq (trans : Nat → Nat × Nat × Nat) (force : Nat → Int → Int → Bool)
    (s : AutoMoveMazeState) (rv : Nat → Nat × Nat) :
    Nat → (AutoMoveMazeState × Int) × (AutoMoveMazeState × Int)
  | 0 =>
    ((init_characters s rv, get_score (init_characters s rv)),
     (init_characters s rv, get_score (init_characters s rv)))
  | k + 1 => saStep trans force k (saSeq trans force s rv k)

/-- The candidate (`next_state`) generated at iteration `i` of
`simulated_annealing`. -/
def saCandidate (trans : Nat → Nat × Nat × Nat) (force : Nat → Int → Int → Bool)
    (s : AutoMoveMazeState) (rv : Nat → Nat × Nat) (i : Nat) : AutoMoveMazeState :=
  transitionAt trans i ((saSeq trans force s rv i).1.1)

/-- The temperature of iteration `i`:
`start_temp + (end_tmp - start_temp) * (i as f64 / number as f64)`,
with `f64` idealised as the reals. -/
noncomputable def temperature (startTemp endTmp : ℝ) (number i : Nat) : ℝ :=
  startTemp + (endTmp - startTemp) * ((i : ℝ) / (number : ℝ))

/-- The acceptance probability of iteration `i`:
`((next_score - now_score) as f64 / temp).exp()`. -/
noncomputable def acceptProbability (startTemp endTmp : ℝ) (number i : Nat)
    (nowScore nextScore : Int) : ℝ :=
  Real.exp (((nextScore : ℝ) - (nowScore : ℝ)) / temperature startTemp endTmp number i)

/-- `is_force_next` of iteration `i`: the acceptance probability compared
against the uniform `[0,1)` draw `draws i` (any real-valued oracle is
admitted). -/
noncomputable def saForce (startTemp endTmp : ℝ) (number : Nat) (draws : Nat → ℝ)
    (i : Nat) (nowScore nextScore : Int) : Bool :=
  @decide (acceptProbability startTemp endTmp number i nowScore nextScore > draws i)
    (Classical.propDecidable _)

/-- `simulated_annealing` of section4.rs: runs `number` iterations and
returns `best_state`. -/
noncomputable def simulated_annealing (s : AutoMoveMazeState) (number : Nat)
    (startTemp endTmp : ℝ) (rv : Nat → Nat × Nat) (trans : Nat → Nat × Nat × Nat)
    (draws : Nat → ℝ) : AutoMoveMazeState :=
  (saSeq trans (saForce startTemp endTmp number draws) s rv number).2.1

end Section4

namespace SearchMaze

/-- Concrete 3×3 scenario state of the spec: values `[[0,1,2],[3,4,5],[6,7,8]]`
(cell `(y,x)` holds `3*y + x`), agent at `(0,0)`, fresh counters. -/
def wMaze3 : Section3.MazeState :=
  ⟨⟨0, 0⟩, 0, 0, none, fun y x => (3 * y + x : Int), 0⟩

/-- Concrete 2×2 state used by the search-algorithm witnesses. -/
def wMaze2 : Section3.MazeState :=
  ⟨⟨0, 0⟩, 0, 0, none, fun y x => (2 * y + x + 1 : Int), 0⟩

/-- Concrete auto-move state: all cells 9, all three characters at `(0,0)`. -/
def wAuto : Section4.AutoMoveMazeState :=
  ⟨0, 0, fun _ _ => (9 : Int), 0, [⟨0, 0⟩, ⟨0, 0⟩, ⟨0, 0⟩]⟩

/-- `wAuto` at the terminal turn. -/
def wAutoDone : Section4.AutoMoveMazeState :=
  ⟨0, 0, fun _ _ => (9 : Int), Section4.END_TURN, [⟨0, 0⟩, ⟨0, 0⟩, ⟨0, 0⟩]⟩

lemma getD_lt {o : Option Nat} {H : Nat} (h : o.getD H < H) :
    o.getD 0 < H ∧ o.isSome = true := by
  cases o with
  | none => simp only [Option.getD_none] at h; exact absurd h (lt_irrefl H)
  | some v => simpa using h

end SearchMaze

namespace Section3

open SearchMaze

lemma mem_legal_actions {H W : Nat} {s : MazeState} {a : Nat} :
    a ∈ legal_actions H W s ↔
      a < 4 ∧ (checkedAddSigned s.character.y (dyl.getD a 0)).getD H < H ∧
        (checkedAddSigned s.character.x (dxl.getD a 0)).getD W < W := by
  simp [legal_actions, List.mem_filter, List.mem_range, and_assoc]

lemma advance_character (a : Nat) (s : MazeState) :
    (advance a s).character =
      ⟨(checkedAddSigned s.character.x (dxl.getD a 0)).getD 0,
       (checkedAddSigned s.character.y (dyl.getD a 0)).getD 0⟩ := by
  simp only [advance]
  split <;> rfl

lemma advance_turn (a : Nat) (s : MazeState) : (advance a s).turn = s.turn + 1 := by
  simp only [advance]
  split <;> rfl

lemma advance_game_score (a : Nat) (s : MazeState) :
    (advance a s).game_score =
      (if 0 < s.points ((checkedAddSigned s.character.y (dyl.getD a 0)).getD 0)
            ((checkedAddSigned s.character.x (dxl.getD a 0)).getD 0)
       then s.game_score + s.points ((checkedAddSigned s.character.y (dyl.getD a 0)).getD 0)
              ((checkedAddSigned s.character.x (dxl.getD a 0)).getD 0)
       else s.game_score) := by
  simp only [advance]
  split <;> rfl

lemma advance_points (a : Nat) (s : MazeState) :
    (advance a s).points =
      (if 0 < s.points ((checkedAddSigned s.character.y (dyl.getD a 0)).getD 0)
            ((checkedAddSigned s.character.x (dxl.getD a 0)).getD 0)
       then zeroAt s.points ((checkedAddSigned s.character.y (dyl.getD a 0)).getD 0)
              ((checkedAddSigned s.character.x (dxl.getD a 0)).getD 0)
       else s.points) := by
  simp only [advance]
  split <;> rfl

lemma advance_score_mono (a : Nat) (s : MazeState) :
    s.game_score ≤ (advance a s).game_score := by
  rw [advance_game_score]
  split
  · linarith
  · exact le_refl _

/-- C1: for every `MazeState` whose position lies inside the `H × W` grid and
every action of `legal_actions`, `advance` keeps the position inside
`[0,H) × [0,W)`, and neither `checked_add_signed` inside `advance` takes its
`unwrap_or(0)` fallback. -/
theorem legal_advance_stays_in_bounds (H W : Nat) (s : MazeState)
    (_hx : s.character.x < W) (_hy : s.character.y < H) (a : Nat)
    (ha : a ∈ legal_actions H W s) :
    (advance a s).character.x < W ∧ (advance a s).character.y < H ∧
      (checkedAddSigned s.character.x (dxl.getD a 0)).isSome = true ∧
      (checkedAddSigned s.character.y (dyl.getD a 0)).isSome = true := by
  obtain ⟨-, hty, htx⟩ := mem_legal_actions.mp ha
  obtain ⟨hx', hsx⟩ := getD_lt htx
  obtain ⟨hy', hsy⟩ := getD_lt hty
  rw [advance_character]
  exact ⟨hx', hy', hsx, hsy⟩

/-- C1 witness: the 3×3 scenario state at `(0,0)` with action `0`. -/
theorem legal_advance_stays_in_bounds_witness :
    wMaze3.character.x < 3 ∧ wMaze3.character.y < 3 ∧ 0 ∈ legal_actions 3 3 wMaze3 ∧
      ((advance 0 wMaze3).character.x < 3 ∧ (advance 0 wMaze3).character.y < 3 ∧
        (checkedAddSigned wMaze3.character.x (dxl.getD 0 0)).isSome = true ∧
        (checkedAddSigned wMaze3.character.y (dyl.getD 0 0)).isSome = true) :=
  ⟨by decide, by decide, by decide,
    legal_advance_stays_in_bounds 3 3 wMaze3 (by decide) (by decide) 0 (by decide)⟩

end Section3

namespace Section4

open SearchMaze

lemma auto_advance_turn (s : AutoMoveMazeState) : (advance s).turn = s.turn + 1 := rfl

end Section4

/-- C10: `is_done` is an equality test `turn == END_TURN` (not `>=`), and
`advance` has no terminal-state guard: advancing a finished state yields
`turn = END_TURN + 1`, on which `is_done` is `false` again — for both
`MazeState` and `AutoMoveMazeState`. -/
theorem is_done_equality_and_advance_unguarded :
    (∀ (ET : Nat) (s : Section3.MazeState), Section3.is_done ET s = true ↔ s.turn = ET) ∧
    (∀ (ET : Nat) (s : Section3.MazeState) (a : Nat), s.turn = ET →
      (Section3.advance a s).turn = ET + 1 ∧
        Section3.is_done ET (Section3.advance a s) = false) ∧
    (∀ s : Section4.AutoMoveMazeState,
      Section4.is_done s = true ↔ s.turn = Section4.END_TURN) ∧
    (∀ s : Section4.AutoMoveMazeState, s.turn = Section4.END_TURN →
      (Section4.advance s).turn = Section4.END_TURN + 1 ∧
        Section4.is_done (Section4.advance s) = false) := by
  refine ⟨fun ET s => ?_, fun ET s a h => ?_, fun s => ?_, fun s h => ?_⟩
  · simp [Section3.is_done]
  · rw [Section3.advance_turn, h]
    refine ⟨rfl, ?_⟩
    simp [Section3.is_done, Section3.advance_turn, h]
  · simp [Section4.is_done]
  · rw [Section4.auto_advance_turn, h]
    refine ⟨rfl, ?_⟩
    simp [Section4.is_done, Section4.auto_advance_turn, h]

/-- C10 witness: concrete finished states of both maze types. -/
theorem is_done_equality_and_advance_unguarded_witness :
    (Section3.is_done 0 SearchMaze.wMaze3 = true ↔ SearchMaze.wMaze3.turn = 0) ∧
    (SearchMaze.wMaze3.turn = 0 ∧
      (Section3.advance 0 SearchMaze.wMaze3).turn = 0 + 1 ∧
        Section3.is_done 0 (Section3.advance 0 SearchMaze.wMaze3) = false) ∧
    (SearchMaze.wAutoDone.turn = Section4.END_TURN ∧
      (Section4.advance SearchMaze.wAutoDone).turn = Section4.END_TURN + 1 ∧
        Section4.is_done (Section4.advance SearchMaze.wAutoDone) = false) :=
  ⟨is_done_equality_and_advance_unguarded.1 0 SearchMaze.wMaze3,
   ⟨rfl, is_done_equality_and_advance_unguarded.2.1 0 SearchMaze.wMaze3 0 rfl⟩,
   ⟨rfl, is_done_equality_and_advance_unguarded.2.2.2 SearchMaze.wAutoDone rfl⟩⟩

namespace SearchMaze

lemma rowSum_zero (W x0 : Nat) (hx : x0 < W) (f : Nat → Int) :
    (∑ x ∈ Finset.range W, (if x = x0 then 0 else f x)) + f x0 =
      ∑ x ∈ Finset.range W, f x := by
  have hmem : x0 ∈ Finset.range W := Finset.mem_range.mpr hx
  have h1 : (∑ x ∈ Finset.range W, (if x = x0 then 0 else f x))
      = ∑ x ∈ (Finset.range W).erase x0, f x := by
    rw [← Finset.sum_erase_add (Finset.range W)
      (fun x => if x = x0 then (0 : Int) else f x) hmem]
    have h0 : (if x0 = x0 then (0 : Int) else f x0) = 0 := if_pos rfl
    rw [h0, add_zero]
    exact Finset.sum_congr rfl fun x hx' => if_neg (Finset.ne_of_mem_erase hx')
  rw [h1, Finset.sum_erase_add (Finset.range W) f hmem]

lemma gridSum_zeroAt (H W : Nat) (p : Nat → Nat → Int) (y0 x0 : Nat)
    (hy : y0 < H) (hx : x0 < W) :
    gridSum H W (zeroAt p y0 x0) + p y0 x0 = gridSum H W p := by
  have hmem : y0 ∈ Finset.range H := Finset.mem_range.mpr hy
  unfold gridSum zeroAt
  rw [← Finset.sum_erase_add (Finset.range H)
    (fun y => ∑ x ∈ Finset.range W, (if y = y0 ∧ x = x0 then 0 else p y x)) hmem]
  rw [← Finset.sum_erase_add (Finset.range H)
    (fun y => ∑ x ∈ Finset.range W, p y x) hmem]
  have h1 : (∑ y ∈ (Finset.range H).erase y0,
        ∑ x ∈ Finset.range W, (if y = y0 ∧ x = x0 then (0 : Int) else p y x)) =
      ∑ y ∈ (Finset.range H).erase y0, ∑ x ∈ Finset.range W, p y x := by
    refine Finset.sum_congr rfl fun y hy' => ?_
    exact Finset.sum_congr rfl fun x _ =>
      if_neg (by simp [Finset.ne_of_mem_erase hy'])
  have h2 : (∑ x ∈ Finset.range W, (if y0 = y0 ∧ x = x0 then (0 : Int) else p y0 x)) + p y0 x0 =
      ∑ x ∈ Finset.range W, p y0 x := by
    have hsimp : ∀ x, (if y0 = y0 ∧ x = x0 then (0 : Int) else p y0 x) =
        (if x = x0 then 0 else p y0 x) := by
      intro x
      simp
    rw [Finset.sum_congr rfl fun x _ => hsimp x]
    exact rowSum_zero W x0 hx (p y0)
  linarith [h1, h2]

lemma gridSum_nonneg (H W : Nat) (p : Nat → Nat → Int)
    (hp : ∀ y x, y < H → x < W → 0 ≤ p y x) : 0 ≤ gridSum H W p := by
  refine Finset.sum_nonneg fun y hy => Finset.sum_nonneg fun x hx => ?_
  exact hp y x (Finset.mem_range.mp hy) (Finset.mem_range.mp hx)

lemma gridSum_le (H W : Nat) (p : Nat → Nat → Int)
    (hp : ∀ y x, y < H → x < W → p y x ≤ 9) :
    gridSum H W p ≤ (H : Int) * W * 9 := by
  have h1 : gridSum H W p ≤ ∑ _y ∈ Finset.range H, ∑ _x ∈ Finset.range W, (9 : Int) := by
    refine Finset.sum_le_sum fun y hy => Finset.sum_le_sum fun x hx => ?_
    exact hp y x (Finset.mem_range.mp hy) (Finset.mem_range.mp hx)
  calc gridSum H W p ≤ _ := h1
    _ = (H : Int) * W * 9 := by
      simp [Finset.sum_const, Finset.card_range, mul_assoc]

end SearchMaze

namespace Section3

open SearchMaze

lemma advance_score_sum (H W : Nat) (s : MazeState) (a : Nat)
    (ha : a ∈ legal_actions H W s) :
    (advance a s).game_score + gridSum H W (advance a s).points =
      s.game_score + gridSum H W s.points := by
  obtain ⟨-, hty, htx⟩ := mem_legal_actions.mp ha
  obtain ⟨hx', -⟩ := getD_lt htx
  obtain ⟨hy', -⟩ := getD_lt hty
  rw [advance_game_score, advance_points]
  split
  · have := gridSum_zeroAt H W s.points
      ((checkedAddSigned s.character.y (dyl.getD a 0)).getD 0)
      ((checkedAddSigned s.character.x (dxl.getD a 0)).getD 0) hy' hx'
    linarith
  · rfl

end Section3

namespace SearchMaze

lemma checkedAddSigned_zero (n : Nat) : checkedAddSigned n 0 = some n := by
  simp [checkedAddSigned]

lemma checkedAddSigned_one (n : Nat) : checkedAddSigned n 1 = some (n + 1) := by
  have h : (0 : Int) ≤ (n : Int) + 1 := by omega
  simp only [checkedAddSigned, if_pos h]
  have h2 : ((n : Int) + 1).toNat = n + 1 := by omega
  rw [h2]

lemma checkedAddSigned_negone (n : Nat) :
    checkedAddSigned n (-1) = if 1 ≤ n then some (n - 1) else none := by
  by_cases h : 1 ≤ n
  · rw [if_pos h]
    have h0 : (0 : Int) ≤ (n : Int) + (-1) := by omega
    simp only [checkedAddSigned, if_pos h0]
    have h2 : ((n : Int) + (-1)).toNat = n - 1 := by omega
    rw [h2]
  · rw [if_neg h]
    have h0 : ¬(0 : Int) ≤ (n : Int) + (-1) := by omega
    simp only [checkedAddSigned, if_neg h0]

end SearchMaze

namespace Section4

open SearchMaze

lemma bestFold_mono (p : Nat → Nat → Int) (c : Coord) :
    ∀ (l : List Nat) (st : Int × Nat), st.1 ≤ (l.foldl (bestStep p c) st).1 := by
  intro l
  induction l with
  | nil => intro st; exact le_refl _
  | cons a rest ih =>
    intro st
    refine le_trans ?_ (ih (bestStep p c st a))
    simp only [bestStep]
    split_ifs with h1 h2
    · exact le_of_lt h2
    · exact le_refl _
    · exact le_refl _

lemma bestFold_inbounds (p : Nat → Nat → Int) (c : Coord) :
    ∀ (l : List Nat) (st : Int × Nat),
      (-INF < st.1 →
        (checkedAddSigned c.y (dyl.getD st.2 0)).getD HEIGHT < HEIGHT ∧
          (checkedAddSigned c.x (dxl.getD st.2 0)).getD WIDTH < WIDTH) →
      -INF < (l.foldl (bestStep p c) st).1 →
        (checkedAddSigned c.y (dyl.getD (l.foldl (bestStep p c) st).2 0)).getD HEIGHT < HEIGHT ∧
          (checkedAddSigned c.x (dxl.getD (l.foldl (bestStep p c) st).2 0)).getD WIDTH < WIDTH := by
  intro l
  induction l with
  | nil => intro st h; exact h
  | cons a rest ih =>
    intro st h
    refine ih (bestStep p c st a) ?_
    simp only [bestStep]
    split_ifs with h1 h2
    · intro _
      exact h1
    · exact h
    · exact h

lemma bestFold_pos (p : Nat → Nat → Int) (c : Coord)
    (hp : ∀ y x, y < HEIGHT → x < WIDTH → 0 ≤ p y x) :
    ∀ (l : List Nat) (st : Int × Nat) (a : Nat), a ∈ l →
      (checkedAddSigned c.y (dyl.getD a 0)).getD HEIGHT < HEIGHT →
      (checkedAddSigned c.x (dxl.getD a 0)).getD WIDTH < WIDTH →
      -INF < (l.foldl (bestStep p c) st).1 := by
  intro l
  induction l with
  | nil => intro st a ha; exact absurd ha (List.not_mem_nil a)
  | cons b rest ih =>
    intro st a ha hty htx
    rcases List.mem_cons.mp ha with rfl | hmem
    · have hval : 0 ≤ p ((checkedAddSigned c.y (dyl.getD a 0)).getD HEIGHT)
          ((checkedAddSigned c.x (dxl.getD a 0)).getD WIDTH) := hp _ _ hty htx
      have hstep : -INF < (bestStep p c st a).1 := by
        simp only [bestStep]
        rw [if_pos ⟨hty, htx⟩]
        split_ifs with h2
        · dsimp only
          unfold INF
          omega
        · push_neg at h2
          have h3 : (0 : Int) ≤ st.1 := le_trans hval h2
          unfold INF
          omega
      calc -INF < (bestStep p c st a).1 := hstep
        _ ≤ _ := bestFold_mono p c rest (bestStep p c st a)
    · exact ih (bestStep p c st b) a hmem hty htx

lemma movePlayerCoord_bounds (p : Nat → Nat → Int) (c : Coord)
    (hy : c.y < HEIGHT) (hx : c.x < WIDTH)
    (hp : ∀ y x, y < HEIGHT → x < WIDTH → 0 ≤ p y x) :
    (movePlayerCoord p c).y < HEIGHT ∧ (movePlayerCoord p c).x < WIDTH := by
  have hgoal : (checkedAddSigned c.y (dyl.getD (bestActionIndex p c) 0)).getD HEIGHT < HEIGHT ∧
      (checkedAddSigned c.x (dxl.getD (bestActionIndex p c) 0)).getD WIDTH < WIDTH := by
    have hpos : -INF < ((List.range 4).foldl (bestStep p c) ((-INF : Int), (0 : Nat))).1 := by
      by_cases hxw : c.x + 1 < WIDTH
      · refine bestFold_pos p c hp (List.range 4) _ 0 (by decide) ?_ ?_
        · have hd : dyl.getD 0 0 = 0 := rfl
          rw [hd, checkedAddSigned_zero]
          exact hy
        · have hd : dxl.getD 0 0 = 1 := rfl
          rw [hd, checkedAddSigned_one]
          exact hxw
      · refine bestFold_pos p c hp (List.range 4) _ 1 (by decide) ?_ ?_
        · have hd : dyl.getD 1 0 = 0 := rfl
          rw [hd, checkedAddSigned_zero]
          exact hy
        · have hd : dxl.getD 1 0 = -1 := rfl
          have h1 : 1 ≤ c.x := by
            have : WIDTH = 5 := rfl
            omega
          rw [hd, checkedAddSigned_negone, if_pos h1]
          have : WIDTH = 5 := rfl
          simp only [Option.getD_some]
          omega
    have := bestFold_inbounds p c (List.range 4) ((-INF : Int), (0 : Nat))
      (fun h => absurd h (lt_irrefl _)) hpos
    exact this
  obtain ⟨hty, htx⟩ := hgoal
  obtain ⟨hy', -⟩ := getD_lt hty
  obtain ⟨hx', -⟩ := getD_lt htx
  exact ⟨hy', hx'⟩

end Section4

namespace Section4

open SearchMaze

lemma moveFold_bounds (p : Nat → Nat → Int)
    (hp : ∀ y x, y < HEIGHT → x < WIDTH → 0 ≤ p y x) :
    ∀ (ids : List Nat) (cs : List Coord),
      (∀ c ∈ cs, c.y < HEIGHT ∧ c.x < WIDTH) →
      ∀ c ∈ ids.foldl (fun cs id => cs.set id (movePlayerCoord p (cs.getD id ⟨0, 0⟩))) cs,
        c.y < HEIGHT ∧ c.x < WIDTH := by
  intro ids
  induction ids with
  | nil => intro cs h; exact h
  | cons i rest ih =>
    intro cs h
    refine ih _ ?_
    intro c hc
    rcases List.mem_or_eq_of_mem_set hc with hmem | rfl
    · exact h c hmem
    · have hbase : (cs.getD i ⟨0, 0⟩).y < HEIGHT ∧ (cs.getD i ⟨0, 0⟩).x < WIDTH := by
        by_cases hlen : i < cs.length
        · have hEq : cs.getD i ⟨0, 0⟩ = cs[i] := by
            simp [List.getD_eq_getElem?_getD, List.getElem?_eq_getElem hlen]
          rw [hEq]
          exact h _ (List.getElem_mem hlen)
        · have hEq : cs.getD i ⟨0, 0⟩ = ⟨0, 0⟩ := by
            simp [List.getD_eq_getElem?_getD, List.getElem?_eq_none (le_of_not_lt hlen)]
          rw [hEq]
          exact ⟨by decide, by decide⟩
      exact movePlayerCoord_bounds p _ hbase.1 hbase.2 hp

lemma moveAll_bounds (s : AutoMoveMazeState)
    (hin : ∀ c ∈ s.characters, c.y < HEIGHT ∧ c.x < WIDTH)
    (hp : ∀ y x, y < HEIGHT → x < WIDTH → 0 ≤ s.points y x) :
    ∀ c ∈ moveAll s, c.y < HEIGHT ∧ c.x < WIDTH :=
  moveFold_bounds s.points hp (List.range CHARACTER_N) s.characters hin

lemma collectAll_sum :
    ∀ (chars : List Coord) (sc : Int) (p : Nat → Nat → Int),
      (∀ c ∈ chars, c.y < HEIGHT ∧ c.x < WIDTH) →
      (collectAll chars sc p).1 + gridSum HEIGHT WIDTH (collectAll chars sc p).2 =
        sc + gridSum HEIGHT WIDTH p := by
  intro chars
  induction chars with
  | nil => intro sc p _; rfl
  | cons c rest ih =>
    intro sc p h
    have hc := h c (List.mem_cons_self c rest)
    have hstep : collectAll (c :: rest) sc p =
        collectAll rest (sc + p c.y c.x) (zeroAt p c.y c.x) := rfl
    rw [hstep]
    have hrec := ih (sc + p c.y c.x) (zeroAt p c.y c.x)
      (fun c' hc' => h c' (List.mem_cons_of_mem c hc'))
    have hz := gridSum_zeroAt HEIGHT WIDTH p c.y c.x hc.1 hc.2
    linarith

lemma auto_advance_score_sum (s : AutoMoveMazeState)
    (hin : ∀ c ∈ s.characters, c.y < HEIGHT ∧ c.x < WIDTH)
    (hp : ∀ y x, y < HEIGHT → x < WIDTH → 0 ≤ s.points y x) :
    (advance s).game_score + gridSum HEIGHT WIDTH (advance s).points =
      s.game_score + gridSum HEIGHT WIDTH s.points :=
  collectAll_sum (moveAll s) s.game_score s.points (moveAll_bounds s hin hp)

end Section4

/-- C2: `advance` collects each cell at most once: it adds the destination
cell's value to `game_score` and zeroes the cell, so
`game_score + (sum of remaining cell values)` is invariant under `advance`
— for `MazeState` (any legal action) and for `AutoMoveMazeState` (in-bounds
characters, non-negative grid). -/
theorem cell_collected_at_most_once :
    (∀ (H W : Nat) (s : Section3.MazeState) (a : Nat), a ∈ Section3.legal_actions H W s →
      (Section3.advance a s).game_score +
          SearchMaze.gridSum H W (Section3.advance a s).points =
        s.game_score + SearchMaze.gridSum H W s.points) ∧
    (∀ s : Section4.AutoMoveMazeState,
      (∀ c ∈ s.characters, c.y < Section4.HEIGHT ∧ c.x < Section4.WIDTH) →
      (∀ y, y < Section4.HEIGHT → ∀ x, x < Section4.WIDTH → 0 ≤ s.points y x) →
      (Section4.advance s).game_score +
          SearchMaze.gridSum Section4.HEIGHT Section4.WIDTH (Section4.advance s).points =
        s.game_score + SearchMaze.gridSum Section4.HEIGHT Section4.WIDTH s.points) :=
  ⟨fun H W s a ha => Section3.advance_score_sum H W s a ha,
   fun s hin hp => Section4.auto_advance_score_sum s hin (fun y x hy hx => hp y hy x hx)⟩

/-- C2 witness: the 3×3 maze state with action 0, and the all-9s auto-move
state. -/
theorem cell_collected_at_most_once_witness :
    (0 ∈ Section3.legal_actions 3 3 SearchMaze.wMaze3 ∧
      (Section3.advance 0 SearchMaze.wMaze3).game_score +
          SearchMaze.gridSum 3 3 (Section3.advance 0 SearchMaze.wMaze3).points =
        SearchMaze.wMaze3.game_score + SearchMaze.gridSum 3 3 SearchMaze.wMaze3.points) ∧
    ((∀ c ∈ SearchMaze.wAuto.characters, c.y < Section4.HEIGHT ∧ c.x < Section4.WIDTH) ∧
      (∀ y, y < Section4.HEIGHT → ∀ x, x < Section4.WIDTH → 0 ≤ SearchMaze.wAuto.points y x) ∧
      (Section4.advance SearchMaze.wAuto).game_score +
          SearchMaze.gridSum Section4.HEIGHT Section4.WIDTH
            (Section4.advance SearchMaze.wAuto).points =
        SearchMaze.wAuto.game_score +
          SearchMaze.gridSum Section4.HEIGHT Section4.WIDTH SearchMaze.wAuto.points) :=
  ⟨⟨by decide, cell_collected_at_most_once.1 3 3 SearchMaze.wMaze3 0 (by decide)⟩,
   ⟨by decide, by decide,
    cell_collected_at_most_once.2 SearchMaze.wAuto (by decide) (by decide)⟩⟩

namespace Section3

open SearchMaze

lemma advance_points_range (H W : Nat) (a : Nat) (s : MazeState)
    (hp : ∀ y, y < H → ∀ x, x < W → 0 ≤ s.points y x ∧ s.points y x ≤ 9) :
    ∀ y, y < H → ∀ x, x < W →
      0 ≤ (advance a s).points y x ∧ (advance a s).points y x ≤ 9 := by
  rw [advance_points]
  split
  · intro y hy x hx
    unfold zeroAt
    split
    · exact ⟨le_refl 0, by norm_num⟩
    · exact hp y hy x hx
  · exact hp

lemma episode_invariant (H W : Nat) :
    ∀ (acts : List Nat) (s : MazeState),
      legalEpisodeB H W acts s = true →
      (∀ y, y < H → ∀ x, x < W → 0 ≤ s.points y x ∧ s.points y x ≤ 9) →
      s.game_score ≤ (runEpisode acts s).game_score ∧
      (runEpisode acts s).game_score + gridSum H W (runEpisode acts s).points =
        s.game_score + gridSum H W s.points ∧
      (∀ y, y < H → ∀ x, x < W →
        0 ≤ (runEpisode acts s).points y x ∧ (runEpisode acts s).points y x ≤ 9) := by
  intro acts
  induction acts with
  | nil => intro s _ hp; exact ⟨le_refl _, rfl, hp⟩
  | cons a rest ih =>
    intro s hleg hp
    have hsplit : decide (a ∈ legal_actions H W s) = true ∧
        legalEpisodeB H W rest (advance a s) = true := by
      simpa [legalEpisodeB, Bool.and_eq_true] using hleg
    have ha : a ∈ legal_actions H W s := of_decide_eq_true hsplit.1
    have hrun : runEpisode (a :: rest) s = runEpisode rest (advance a s) := rfl
    have hp' := advance_points_range H W a s hp
    obtain ⟨hmono, hsum, hrange⟩ := ih (advance a s) hsplit.2 hp'
    refine ⟨le_trans (advance_score_mono a s) (by rwa [hrun]), ?_, by rwa [hrun]⟩
    rw [hrun]
    have hstep := advance_score_sum H W s a ha
    linarith

lemma runEpisode_take_mono (acts : List Nat) (s : MazeState) (n : Nat) :
    (runEpisode (acts.take n) s).game_score ≤
      (runEpisode (acts.take (n + 1)) s).game_score := by
  rw [List.take_succ]
  unfold runEpisode
  rw [List.foldl_append]
  cases h : acts[n]? with
  | none => simp
  | some a =>
    simp only [Option.toList_some, List.foldl_cons, List.foldl_nil]
    exact advance_score_mono a _

/-- C9: for any legal episode from an initial state with per-cell values in
`[0,9]` and zero score (as `MazeState::new` produces), the final
`game_score` lies in `[0, H*W*9]`, and `game_score` is non-decreasing along
the episode. -/
theorem episode_score_bounds (H W : Nat) (s : MazeState) (acts : List Nat)
    (_hx : s.character.x < W) (_hy : s.character.y < H)
    (hs0 : s.game_score = 0)
    (hp : ∀ y, y < H → ∀ x, x < W → 0 ≤ s.points y x ∧ s.points y x ≤ 9)
    (hleg : legalEpisodeB H W acts s = true) :
    0 ≤ (runEpisode acts s).game_score ∧
      (runEpisode acts s).game_score ≤ (H : Int) * W * 9 ∧
      ∀ n, (runEpisode (acts.take n) s).game_score ≤
        (runEpisode (acts.take (n + 1)) s).game_score := by
  obtain ⟨hmono, hsum, hrange⟩ := episode_invariant H W acts s hleg hp
  refine ⟨by rw [hs0] at hmono; exact hmono, ?_, fun n => runEpisode_take_mono acts s n⟩
  have hfin_nonneg : 0 ≤ gridSum H W (runEpisode acts s).points :=
    gridSum_nonneg H W _ fun y x hy hx => (hrange y hy x hx).1
  have hinit_le : gridSum H W s.points ≤ (H : Int) * W * 9 :=
    gridSum_le H W _ fun y x hy hx => (hp y hy x hx).2
  linarith

/-- C9 witness: the 3×3 scenario state with the legal episode `[0, 2]`. -/
theorem episode_score_bounds_witness :
    (wMaze3.character.x < 3 ∧ wMaze3.character.y < 3 ∧ wMaze3.game_score = 0 ∧
      (∀ y, y < 3 → ∀ x, x < 3 → 0 ≤ wMaze3.points y x ∧ wMaze3.points y x ≤ 9) ∧
      legalEpisodeB 3 3 [0, 2] wMaze3 = true) ∧
    (0 ≤ (runEpisode [0, 2] wMaze3).game_score ∧
      (runEpisode [0, 2] wMaze3).game_score ≤ (3 : Int) * 3 * 9 ∧
      ∀ n, (runEpisode (List.take n [0, 2]) wMaze3).game_score ≤
        (runEpisode (List.take (n + 1) [0, 2]) wMaze3).game_score) :=
  ⟨⟨by decide, by decide, rfl, by decide, by decide⟩,
   episode_score_bounds 3 3 wMaze3 [0, 2] (by decide) (by decide) rfl
     (by decide) (by decide)⟩

end Section3

namespace SearchMaze

lemma mem_of_getElem_opt {α : Type} {l : List α} {n : Nat} {a : α}
    (h : l[n]? = some a) : a ∈ l := by
  have hn : n < l.length := by
    by_contra hc
    rw [List.getElem?_eq_none (le_of_not_lt hc)] at h
    exact Option.noConfusion h
  rw [List.getElem?_eq_getElem hn] at h
  rw [← Option.some_inj.mp h]
  exact List.getElem_mem hn

end SearchMaze

namespace Section3

open SearchMaze

lemma greedyLoop_cases (s : MazeState) :
    ∀ (acts : List Nat) (best : Int) (ba : Option Nat),
      (greedyLoop s acts best ba = ba ∧ ∀ b ∈ acts, gScore s b ≤ best) ∨
      (∃ (i : Nat) (a : Nat), acts[i]? = some a ∧ greedyLoop s acts best ba = some a ∧
        best < gScore s a ∧
        (∀ (j : Nat) (b : Nat), acts[j]? = some b → gScore s b ≤ gScore s a) ∧
        (∀ (j : Nat) (b : Nat), j < i → acts[j]? = some b → gScore s b < gScore s a)) := by
  intro acts
  induction acts with
  | nil =>
    intro best ba
    exact Or.inl ⟨rfl, by simp⟩
  | cons c rest ih =>
    intro best ba
    by_cases h : best < gScore s c
    · have hstep : greedyLoop s (c :: rest) best ba =
          greedyLoop s rest (gScore s c) (some c) := by
        simp only [greedyLoop]
        rw [if_pos h]
      rcases ih (gScore s c) (some c) with ⟨heq, hall⟩ | ⟨i, a, hia, heq, hlt, hmax, hpriors⟩
      · refine Or.inr ⟨0, c, List.getElem?_cons_zero, by rw [hstep, heq], h, ?_, ?_⟩
        · intro j b hjb
          match j with
          | 0 => rw [List.getElem?_cons_zero] at hjb; rw [Option.some_inj.mp hjb]
          | j + 1 =>
            rw [List.getElem?_cons_succ] at hjb
            exact hall b (mem_of_getElem_opt hjb)
        · intro j b hj
          exact absurd hj (Nat.not_lt_zero j)
      · refine Or.inr ⟨i + 1, a, by rw [List.getElem?_cons_succ]; exact hia,
          by rw [hstep, heq], lt_trans h hlt, ?_, ?_⟩
        · intro j b hjb
          match j with
          | 0 =>
            rw [List.getElem?_cons_zero] at hjb
            rw [← Option.some_inj.mp hjb]
            exact le_of_lt hlt
          | j + 1 =>
            rw [List.getElem?_cons_succ] at hjb
            exact hmax j b hjb
        · intro j b hj hjb
          match j with
          | 0 =>
            rw [List.getElem?_cons_zero] at hjb
            rw [← Option.some_inj.mp hjb]
            exact hlt
          | j + 1 =>
            rw [List.getElem?_cons_succ] at hjb
            exact hpriors j b (Nat.lt_of_succ_lt_succ hj) hjb
    · have hstep : greedyLoop s (c :: rest) best ba = greedyLoop s rest best ba := by
        simp only [greedyLoop]
        rw [if_neg h]
      push_neg at h
      rcases ih best ba with ⟨heq, hall⟩ | ⟨i, a, hia, heq, hlt, hmax, hpriors⟩
      · refine Or.inl ⟨by rw [hstep, heq], ?_⟩
        intro b hb
        rcases List.mem_cons.mp hb with rfl | hmem
        · exact h
        · exact hall b hmem
      · refine Or.inr ⟨i + 1, a, by rw [List.getElem?_cons_succ]; exact hia,
          by rw [hstep, heq], hlt, ?_, ?_⟩
        · intro j b hjb
          match j with
          | 0 =>
            rw [List.getElem?_cons_zero] at hjb
            rw [← Option.some_inj.mp hjb]
            exact le_of_lt (lt_of_le_of_lt h hlt)
          | j + 1 =>
            rw [List.getElem?_cons_succ] at hjb
            exact hmax j b hjb
        · intro j b hj hjb
          match j with
          | 0 =>
            rw [List.getElem?_cons_zero] at hjb
            rw [← Option.some_inj.mp hjb]
            exact lt_of_le_of_lt h hlt
          | j + 1 =>
            rw [List.getElem?_cons_succ] at hjb
            exact hpriors j b (Nat.lt_of_succ_lt_succ hj) hjb

/-- C3: `greedy_action` returns the legal action whose one-step-lookahead
evaluated score is maximal, resolving ties in favour of the first-seen
action in `legal_actions()` order: the returned action sits at some index
`i` of the legal-action list, no action scores higher, and every action at
an earlier index scores strictly lower. -/
theorem greedy_action_first_argmax (H W : Nat) (s : MazeState)
    (hne : legal_actions H W s ≠ [])
    (hbig : ∀ b ∈ legal_actions H W s, -INF < gScore s b) :
    ∃ (i : Nat) (a : Nat), (legal_actions H W s)[i]? = some a ∧
      greedy_action H W s = some a ∧
      (∀ (j : Nat) (b : Nat), (legal_actions H W s)[j]? = some b → gScore s b ≤ gScore s a) ∧
      (∀ (j : Nat) (b : Nat), j < i → (legal_actions H W s)[j]? = some b → gScore s b < gScore s a) := by
  rcases greedyLoop_cases s (legal_actions H W s) (-INF) none with
    ⟨-, hall⟩ | ⟨i, a, hia, heq, -, hmax, hpriors⟩
  · exfalso
    cases hacts : legal_actions H W s with
    | nil => exact hne hacts
    | cons c cs =>
      have h1 := hbig c (by rw [hacts]; exact List.mem_cons_self c cs)
      have h2 := hall c (by rw [hacts]; exact List.mem_cons_self c cs)
      exact absurd (lt_of_lt_of_le h1 h2) (lt_irrefl _)
  · exact ⟨i, a, hia, heq, hmax, hpriors⟩

/-- C3 witness: the spec's 3×3 scenario — values `[[0,1,2],[3,4,5],[6,7,8]]`,
agent at `(0,0)`: the greedy action is `2` (`+y`, toward cell `(1,0)` of
value 3, beating value 1 at `(0,1)`). -/
theorem greedy_action_first_argmax_witness :
    (legal_actions 3 3 wMaze3 ≠ [] ∧
      (∀ b ∈ legal_actions 3 3 wMaze3, -INF < gScore wMaze3 b)) ∧
    greedy_action 3 3 wMaze3 = some 2 ∧
    (∃ (i : Nat) (a : Nat), (legal_actions 3 3 wMaze3)[i]? = some a ∧
      greedy_action 3 3 wMaze3 = some a ∧
      (∀ (j : Nat) (b : Nat), (legal_actions 3 3 wMaze3)[j]? = some b →
        gScore wMaze3 b ≤ gScore wMaze3 a) ∧
      (∀ (j : Nat) (b : Nat), j < i → (legal_actions 3 3 wMaze3)[j]? = some b →
        gScore wMaze3 b < gScore wMaze3 a)) :=
  ⟨⟨by decide, by decide⟩, by decide,
   greedy_action_first_argmax 3 3 wMaze3 (by decide) (by decide)⟩

end Section3

namespace Section3

open SearchMaze

lemma heapPeek_cons (c : MazeState) (rest : List MazeState) :
    ∃ m, heapPeek (c :: rest) = some m := by
  cases hrest : heapPeek rest with
  | none => exact ⟨c, by simp only [heapPeek, hrest]⟩
  | some m0 =>
    by_cases h : c.evaluated_score < m0.evaluated_score
    · exact ⟨m0, by simp only [heapPeek, hrest]; rw [if_pos h]⟩
    · exact ⟨c, by simp only [heapPeek, hrest]; rw [if_neg h]⟩

lemma heapPeek_isSome {l : List MazeState} (h : l.isEmpty = false) :
    ∃ m, heapPeek l = some m := by
  cases l with
  | nil => exact absurd h (by simp)
  | cons c rest => exact heapPeek_cons c rest

lemma heapPeek_mem : ∀ {l : List MazeState} {m : MazeState},
    heapPeek l = some m → m ∈ l := by
  intro l
  induction l with
  | nil => intro m h; exact Option.noConfusion h
  | cons c rest ih =>
    intro m h
    cases hrest : heapPeek rest with
    | none =>
      simp only [heapPeek, hrest] at h
      rw [← Option.some_inj.mp h]
      exact List.mem_cons_self c rest
    | some m0 =>
      simp only [heapPeek, hrest] at h
      by_cases hlt : c.evaluated_score < m0.evaluated_score
      · rw [if_pos hlt] at h
        rw [← Option.some_inj.mp h]
        exact List.mem_cons_of_mem c (ih hrest)
      · rw [if_neg hlt] at h
        rw [← Option.some_inj.mp h]
        exact List.mem_cons_self c rest

lemma heapPeek_le : ∀ {l : List MazeState} {m : MazeState},
    heapPeek l = some m → ∀ x ∈ l, x.evaluated_score ≤ m.evaluated_score := by
  intro l
  induction l with
  | nil => intro m h; exact Option.noConfusion h
  | cons c rest ih =>
    intro m h x hx
    cases hrest : heapPeek rest with
    | none =>
      simp only [heapPeek, hrest] at h
      have hnil : rest = [] := by
        cases rest with
        | nil => rfl
        | cons d ds =>
          obtain ⟨m1, hm1⟩ := heapPeek_cons d ds
          rw [hm1] at hrest
          exact Option.noConfusion hrest
      rw [← Option.some_inj.mp h]
      rcases List.mem_cons.mp hx with rfl | hmem
      · exact le_refl _
      · rw [hnil] at hmem
        exact absurd hmem (List.not_mem_nil x)
    | some m0 =>
      simp only [heapPeek, hrest] at h
      by_cases hlt : c.evaluated_score < m0.evaluated_score
      · rw [if_pos hlt] at h
        rw [← Option.some_inj.mp h]
        rcases List.mem_cons.mp hx with rfl | hmem
        · exact le_of_lt hlt
        · exact ih hrest x hmem
      · rw [if_neg hlt] at h
        rw [← Option.some_inj.mp h]
        rcases List.mem_cons.mp hx with rfl | hmem
        · exact le_refl _
        · exact le_trans (ih hrest x hmem) (le_of_not_lt hlt)

lemma selectFromDepth_hit (beams : List (List MazeState)) (t : Nat)
    (hne : (beams.getD t []).isEmpty = false) :
    selectFromDepth beams t = (heapPeek (beams.getD t [])).bind MazeState.first_action := by
  cases t with
  | zero =>
    unfold selectFromDepth
    rw [if_neg (by rw [hne]; exact Bool.false_ne_true)]
  | succ t' =>
    unfold selectFromDepth
    rw [if_neg (by rw [hne]; exact Bool.false_ne_true)]

lemma selectFromDepth_skip (beams : List (List MazeState)) :
    ∀ (k t : Nat),
      (∀ u, t < u → u ≤ t + k → (beams.getD u []).isEmpty = true) →
      selectFromDepth beams (t + k) = selectFromDepth beams t := by
  intro k
  induction k with
  | zero => intro t _; rfl
  | succ k ih =>
    intro t h
    have hstep : t + (k + 1) = (t + k) + 1 := rfl
    rw [hstep]
    simp only [selectFromDepth]
    rw [if_pos (h (t + k + 1) (by omega) (by omega))]
    exact ih t fun u h1 h2 => h u h1 (by omega)

/-- C4: with `beamWidth, beamDepth, beamNumber ≥ 1`, `chokudai_search_action`
returns the `first_action` of the highest-evaluated node of the deepest
non-empty depth frontier left after all passes; shallower frontiers are never
consulted while a deeper one is non-empty. -/
theorem chokudai_returns_deepest_best (H W ET : Nat) (s : MazeState)
    (bw bd bn : Nat) (_hbw : 1 ≤ bw) (_hbd : 1 ≤ bd) (_hbn : 1 ≤ bn)
    (t : Nat) (ht : t ≤ bd)
    (hne : ((chokudaiBeams H W ET s bw bd bn).getD t []).isEmpty = false)
    (hdeep : ∀ u, t < u → u ≤ bd →
      ((chokudaiBeams H W ET s bw bd bn).getD u []).isEmpty = true) :
    ∃ m, heapPeek ((chokudaiBeams H W ET s bw bd bn).getD t []) = some m ∧
      m ∈ (chokudaiBeams H W ET s bw bd bn).getD t [] ∧
      (∀ x ∈ (chokudaiBeams H W ET s bw bd bn).getD t [],
        x.evaluated_score ≤ m.evaluated_score) ∧
      chokudai_search_action H W ET s bw bd bn = m.first_action := by
  obtain ⟨m, hm⟩ := heapPeek_isSome hne
  refine ⟨m, hm, heapPeek_mem hm, heapPeek_le hm, ?_⟩
  unfold chokudai_search_action
  have hsel : selectFromDepth (chokudaiBeams H W ET s bw bd bn) (t + (bd - t)) =
      selectFromDepth (chokudaiBeams H W ET s bw bd bn) t :=
    selectFromDepth_skip (chokudaiBeams H W ET s bw bd bn) (bd - t) t
      (fun u h1 h2 => hdeep u h1 (by omega))
  rw [show t + (bd - t) = bd by omega] at hsel
  rw [hsel, selectFromDepth_hit _ t hne, hm]
  rfl

/-- C4 witness: 2×2 grid, `END_TURN = 1`, `beamWidth = beamDepth =
beamNumber = 1`; depth frontier 1 is the deepest non-empty one. -/
theorem chokudai_returns_deepest_best_witness :
    (((chokudaiBeams 2 2 1 SearchMaze.wMaze2 1 1 1).getD 1 []).isEmpty = false) ∧
    (∃ m, heapPeek ((chokudaiBeams 2 2 1 SearchMaze.wMaze2 1 1 1).getD 1 []) = some m ∧
      m ∈ (chokudaiBeams 2 2 1 SearchMaze.wMaze2 1 1 1).getD 1 [] ∧
      (∀ x ∈ (chokudaiBeams 2 2 1 SearchMaze.wMaze2 1 1 1).getD 1 [],
        x.evaluated_score ≤ m.evaluated_score) ∧
      chokudai_search_action 2 2 1 SearchMaze.wMaze2 1 1 1 = m.first_action) :=
  ⟨rfl,
   chokudai_returns_deepest_best 2 2 1 SearchMaze.wMaze2 1 1 1 (le_refl 1) (le_refl 1)
     (le_refl 1) 1 (le_refl 1) rfl
     (fun u h1 h2 => absurd (lt_of_lt_of_le h1 h2) (lt_irrefl 1))⟩

end Section3

namespace Section3

open SearchMaze

lemma heapPeek_none_iff : ∀ {l : List MazeState}, heapPeek l = none ↔ l = [] := by
  intro l
  cases l with
  | nil => simp [heapPeek]
  | cons c rest =>
    constructor
    · intro h
      obtain ⟨m, hm⟩ := heapPeek_cons c rest
      rw [hm] at h
      exact Option.noConfusion h
    · intro h
      exact List.noConfusion h

lemma heapPop_length : ∀ (l : List MazeState), l ≠ [] → (heapPop l).length + 1 = l.length := by
  intro l
  induction l with
  | nil => intro h; exact absurd rfl h
  | cons c rest ih =>
    intro _
    cases hrest : heapPeek rest with
    | none =>
      simp only [heapPop, hrest]
      rfl
    | some m0 =>
      have hrne : rest ≠ [] := by
        intro hnil
        rw [hnil] at hrest
        exact Option.noConfusion hrest
      simp only [heapPop, hrest]
      by_cases hlt : c.evaluated_score < m0.evaluated_score
      · rw [if_pos hlt]
        simp only [List.length_cons]
        rw [ih hrne]
      · rw [if_neg hlt]
        rfl

lemma pureInner_polls (H W d : Nat) :
    ∀ (w : Nat) (nowBeam next : List MazeState),
      (pureInner H W d w nowBeam next).2 = min w (nowBeam.length + 1) := by
  intro w
  induction w with
  | zero => intro nowBeam next; simp [pureInner]
  | succ w ih =>
    intro nowBeam next
    cases nowBeam with
    | nil =>
      simp only [pureInner, heapPeek]
      simp
    | cons c rest =>
      obtain ⟨m, hm⟩ := heapPeek_cons c rest
      simp only [pureInner, hm]
      have hlen := heapPop_length (c :: rest) (List.noConfusion)
      rw [ih (heapPop (c :: rest)) (pushAll (expandChildren H W d m) next), hlen]
      simp only [List.length_cons]
      omega

lemma bstInner_complete (H W d deadline : Nat) :
    ∀ (w : Nat) (nowBeam next : List MazeState) (pc : Nat),
      pc + (pureInner H W d w nowBeam next).2 ≤ deadline →
      bstInner H W d deadline w nowBeam next pc =
        some ((pureInner H W d w nowBeam next).1, pc + (pureInner H W d w nowBeam next).2) := by
  intro w
  induction w with
  | zero =>
    intro nowBeam next pc _
    simp [bstInner, pureInner]
  | succ w ih =>
    intro nowBeam next pc hle
    cases hpk : heapPeek nowBeam with
    | none =>
      simp only [pureInner, hpk] at hle ⊢
      have hlt : ¬ deadline ≤ pc := by omega
      simp only [bstInner, hpk]
      rw [if_neg hlt]
    | some now =>
      simp only [pureInner, hpk] at hle ⊢
      have hlt : ¬ deadline ≤ pc := by omega
      simp only [bstInner, hpk]
      rw [if_neg hlt]
      have hrec := ih (heapPop nowBeam) (pushAll (expandChildren H W d now) next) (pc + 1)
        (by omega)
      rw [hrec]
      have harith : pc + 1 +
          (pureInner H W d w (heapPop nowBeam) (pushAll (expandChildren H W d now) next)).2 =
          pc + ((pureInner H W d w (heapPop nowBeam)
            (pushAll (expandChildren H W d now) next)).2 + 1) := by omega
      rw [harith]

lemma bstInner_timeout (H W d deadline : Nat) :
    ∀ (w : Nat) (nowBeam next : List MazeState) (pc : Nat),
      pc ≤ deadline →
      deadline < pc + (pureInner H W d w nowBeam next).2 →
      bstInner H W d deadline w nowBeam next pc = none := by
  intro w
  induction w with
  | zero =>
    intro nowBeam next pc h1 h2
    simp only [pureInner] at h2
    omega
  | succ w ih =>
    intro nowBeam next pc h1 h2
    by_cases hdl : deadline ≤ pc
    · simp only [bstInner]
      rw [if_pos hdl]
    · cases hpk : heapPeek nowBeam with
      | none =>
        simp only [pureInner, hpk] at h2
        omega
      | some now =>
        simp only [pureInner, hpk] at h2
        simp only [bstInner, hpk]
        rw [if_neg hdl]
        exact ih (heapPop nowBeam) (pushAll (expandChildren H W d now) next) (pc + 1)
          (by omega) (by omega)

lemma FP_succ_snd (H W bw : Nat) (s : MazeState) (k : Nat) :
    (FP H W bw s (k + 1)).2 =
      (FP H W bw s k).2 + (pureInner H W k bw (FP H W bw s k).1 []).2 := rfl

lemma FP_succ_fst (H W bw : Nat) (s : MazeState) (k : Nat) :
    (FP H W bw s (k + 1)).1 = (pureInner H W k bw (FP H W bw s k).1 []).1 := rfl

lemma FP_snd_mono (H W bw : Nat) (s : MazeState) :
    ∀ (b a : Nat), a ≤ b → (FP H W bw s a).2 ≤ (FP H W bw s b).2 := by
  intro b
  induction b with
  | zero => intro a ha; rw [Nat.le_zero.mp ha]
  | succ b ih =>
    intro a ha
    rcases Nat.lt_or_ge a (b + 1) with h | h
    · refine le_trans (ih a (by omega)) ?_
      rw [FP_succ_snd]
      omega
    · rw [Nat.le_antisymm ha h]

lemma bstOuter_run (H W ET bw : Nat) (s : MazeState) (deadline d : Nat)
    (hd : 1 ≤ d)
    (hrounds : ∀ k, k < d → ∃ b, heapPeek (FP H W bw s (k + 1)).1 = some b ∧
      is_done ET b = false)
    (hdl : (FP H W bw s d).2 ≤ deadline)
    (hdr : deadline < (FP H W bw s d).2 +
      (pureInner H W d bw (FP H W bw s d).1 []).2) :
    ∀ (j k f : Nat), k + j = d → j ≤ f →
      bstOuter H W ET bw deadline (f + 1) (FP H W bw s k).1
          (if k = 0 then none else heapPeek (FP H W bw s k).1) (FP H W bw s k).2 k =
        (heapPeek (FP H W bw s d).1).bind MazeState.first_action := by
  intro j
  induction j with
  | zero =>
    intro k f hk _
    have hkd : k = d := by omega
    subst hkd
    have htimeout := bstInner_timeout H W k deadline bw (FP H W bw s k).1 [] (FP H W bw s k).2
      hdl hdr
    simp only [bstOuter, htimeout]
    rw [if_neg (by omega : ¬ k = 0)]
  | succ j ih =>
    intro k f hk hjf
    have hkd : k < d := by omega
    obtain ⟨b, hb, hbdone⟩ := hrounds k hkd
    have hle : (FP H W bw s k).2 + (pureInner H W k bw (FP H W bw s k).1 []).2 ≤ deadline := by
      have h1 : (FP H W bw s (k + 1)).2 ≤ (FP H W bw s d).2 :=
        FP_snd_mono H W bw s d (k + 1) (by omega)
      rw [FP_succ_snd] at h1
      omega
    have hcomplete := bstInner_complete H W k deadline bw (FP H W bw s k).1 [] (FP H W bw s k).2 hle
    cases f with
    | zero => omega
    | succ f0 =>
      simp only [bstOuter, hcomplete]
      rw [← FP_succ_fst, ← FP_succ_snd, hb]
      simp only [hbdone, Bool.false_eq_true, if_false]
      have hbest : some b = if k + 1 = 0 then none else heapPeek (FP H W bw s (k + 1)).1 := by
        rw [if_neg (Nat.succ_ne_zero k), hb]
      rw [hbest]
      exact ih (k + 1) f0 (by omega) (by omega)

/-- C5: in `beam_search_with_time_threshold_action` the deadline is polled
once per candidate pop (a completed round over a frontier of size `n` with
width `w` makes exactly `min w (n+1)` polls), and when the deadline trips
during round `d+1` after `d ≥ 1` fully completed rounds, the function
returns the `first_action` of the highest-evaluated state of the frontier
produced by round `d` — the last fully completed round. -/
theorem beam_time_returns_last_completed_round (H W ET bw : Nat) (s : MazeState)
    (deadline d fuel : Nat) (hd : 1 ≤ d)
    (hrounds : ∀ k, k < d → ∃ b, heapPeek (FP H W bw s (k + 1)).1 = some b ∧
      is_done ET b = false)
    (hdl : (FP H W bw s d).2 ≤ deadline)
    (hdr : deadline < (FP H W bw s d).2 +
      (pureInner H W d bw (FP H W bw s d).1 []).2)
    (hfuel : d < fuel) :
    (∃ m, heapPeek (FP H W bw s d).1 = some m ∧ m ∈ (FP H W bw s d).1 ∧
      (∀ x ∈ (FP H W bw s d).1, x.evaluated_score ≤ m.evaluated_score) ∧
      beam_search_with_time_threshold_action H W ET bw deadline fuel s = m.first_action) ∧
    (∀ (w : Nat) (nowBeam next : List MazeState),
      (pureInner H W d w nowBeam next).2 = min w (nowBeam.length + 1)) := by
  constructor
  · obtain ⟨m, hm, -⟩ := hrounds (d - 1) (by omega)
    rw [show d - 1 + 1 = d by omega] at hm
    refine ⟨m, hm, heapPeek_mem hm, heapPeek_le hm, ?_⟩
    have hrun := bstOuter_run H W ET bw s deadline d hd hrounds hdl hdr d 0 (fuel - 1)
      (by omega) (by omega)
    have hnone : (if (0 : Nat) = 0 then (none : Option MazeState)
        else heapPeek (FP H W bw s 0).1) = none := if_pos rfl
    rw [hnone] at hrun
    unfold beam_search_with_time_threshold_action
    rw [show fuel = (fuel - 1) + 1 by omega]
    show bstOuter H W ET bw deadline ((fuel - 1) + 1) (FP H W bw s 0).1 none
      (FP H W bw s 0).2 0 = m.first_action
    rw [hrun, hm]
    rfl
  · exact pureInner_polls H W d

/-- C5 witness: 2×2 grid, `END_TURN = 3`, width 1; the deadline (poll index
1) trips during round 2, after round 1 completed; the returned action is the
`first_action` of the best state of round 1's frontier. -/
theorem beam_time_returns_last_completed_round_witness :
    ((FP 2 2 1 SearchMaze.wMaze2 1).2 ≤ 1 ∧
      1 < (FP 2 2 1 SearchMaze.wMaze2 1).2 +
        (pureInner 2 2 1 1 (FP 2 2 1 SearchMaze.wMaze2 1).1 []).2) ∧
    ((∃ m, heapPeek (FP 2 2 1 SearchMaze.wMaze2 1).1 = some m ∧
        m ∈ (FP 2 2 1 SearchMaze.wMaze2 1).1 ∧
        (∀ x ∈ (FP 2 2 1 SearchMaze.wMaze2 1).1,
          x.evaluated_score ≤ m.evaluated_score) ∧
        beam_search_with_time_threshold_action 2 2 3 1 1 5 SearchMaze.wMaze2 =
          m.first_action) ∧
      (∀ (w : Nat) (nowBeam next : List MazeState),
        (pureInner 2 2 1 w nowBeam next).2 = min w (nowBeam.length + 1))) :=
  ⟨⟨by decide, by decide⟩,
   beam_time_returns_last_completed_round 2 2 3 1 SearchMaze.wMaze2 1 1 5 (le_refl 1)
     (by
       intro k hk
       interval_cases k
       exact ⟨_, rfl, rfl⟩)
     (by decide) (by decide) (by decide)⟩

end Section3

namespace Section4

open SearchMaze

lemma hc_inv (trans : Nat → Nat × Nat × Nat) (rv : Nat → Nat × Nat)
    (s : AutoMoveMazeState) :
    ∀ i, (hcSeq trans rv s i).2 = get_score (hcSeq trans rv s i).1 := by
  intro i
  induction i with
  | zero => rfl
  | succ i ih =>
    simp only [hcSeq, hcStep]
    split
    · rfl
    · exact ih

/-- C6: in `hill_climb`, the perturbed candidate replaces the current
accepted state exactly when its rollout score is strictly greater than the
current accepted score, and consequently the accepted-state score sequence
is non-decreasing across iterations. -/
theorem hill_climb_strict_accept_monotone (trans : Nat → Nat × Nat × Nat)
    (rv : Nat → Nat × Nat) (s : AutoMoveMazeState) (number i : Nat) :
    (hcSeq trans rv s i).2 = get_score (hcSeq trans rv s i).1 ∧
    (hcSeq trans rv s (i + 1)).1 =
      (if get_score (hcSeq trans rv s i).1 <
          get_score (transitionAt trans i (hcSeq trans rv s i).1)
       then transitionAt trans i (hcSeq trans rv s i).1
       else (hcSeq trans rv s i).1) ∧
    get_score (hcSeq trans rv s i).1 ≤ get_score (hcSeq trans rv s (i + 1)).1 ∧
    hill_climb s number rv trans = (hcSeq trans rv s number).1 := by
  have h1 := hc_inv trans rv s i
  have h2 : (hcSeq trans rv s (i + 1)).1 =
      (if get_score (hcSeq trans rv s i).1 <
          get_score (transitionAt trans i (hcSeq trans rv s i).1)
       then transitionAt trans i (hcSeq trans rv s i).1
       else (hcSeq trans rv s i).1) := by
    simp only [hcSeq, hcStep]
    rw [h1]
    split
    · rfl
    · rfl
  refine ⟨h1, h2, ?_, rfl⟩
  rw [h2]
  split
  · next h => exact le_of_lt h
  · exact le_refl _

end Section4

namespace Section4

open SearchMaze

lemma sa_inv (trans : Nat → Nat × Nat × Nat) (force : Nat → Int → Int → Bool)
    (s : AutoMoveMazeState) (rv : Nat → Nat × Nat) :
    ∀ k,
      (saSeq trans force s rv k).1.2 = get_score (saSeq trans force s rv k).1.1 ∧
      (saSeq trans force s rv k).2.2 = get_score (saSeq trans force s rv k).2.1 ∧
      (saSeq trans force s rv k).2.1 ∈
        init_characters s rv :: (List.range k).map (saCandidate trans force s rv) ∧
      (∀ x ∈ init_characters s rv :: (List.range k).map (saCandidate trans force s rv),
        get_score x ≤ (saSeq trans force s rv k).2.2) := by
  intro k
  induction k with
  | zero =>
    refine ⟨rfl, rfl, List.mem_cons_self _ _, ?_⟩
    intro x hx
    rcases List.mem_cons.mp hx with rfl | hmem
    · exact le_refl _
    · exact absurd hmem (List.not_mem_nil x)
  | succ k ih =>
    obtain ⟨ihn, ihb, ihmem, ihmax⟩ := ih
    have hlist : init_characters s rv ::
        (List.range (k + 1)).map (saCandidate trans force s rv) =
        (init_characters s rv ::
          (List.range k).map (saCandidate trans force s rv)) ++
          [saCandidate trans force s rv k] := by
      rw [List.range_succ, List.map_append]
      rfl
    constructor
    · simp only [saSeq, saStep]
      split
      · rfl
      · exact ihn
    constructor
    · simp only [saSeq, saStep]
      split
      · rfl
      · exact ihb
    constructor
    · rw [hlist]
      simp only [saSeq, saStep]
      split
      · exact List.mem_append_right _ (List.mem_cons_self _ _)
      · exact List.mem_append_left _ ihmem
    · intro x hx
      rw [hlist] at hx
      rcases List.mem_append.mp hx with hmem | hlast
      · refine le_trans (ihmax x hmem) ?_
        simp only [saSeq, saStep]
        split
        · next h => exact le_of_lt h
        · exact le_refl _
      · have hxc : x = saCandidate trans force s rv k := by
          rcases List.mem_cons.mp hlast with h | h
          · exact h
          · exact absurd h (List.not_mem_nil x)
        rw [hxc]
        simp only [saSeq, saStep]
        split
        · exact le_refl _
        · next h =>
          push_neg at h
          exact h
      
/-- C7: `simulated_annealing` returns the best-ever-seen configuration: its
rollout score is maximal among the initial placement and every perturbed
candidate evaluated during the run, for every acceptance outcome sequence
(hence in particular for the source's probabilistic acceptance rule), and
independently of the final `now_state` of the walk. -/
theorem simulated_annealing_returns_best_seen (trans : Nat → Nat × Nat × Nat)
    (force : Nat → Int → Int → Bool) (s : AutoMoveMazeState)
    (rv : Nat → Nat × Nat) (number : Nat) (startTemp endTmp : ℝ)
    (draws : Nat → ℝ) :
    get_score (saSeq trans force s rv number).2.1 =
      (saSeq trans force s rv number).2.2 ∧
    (saSeq trans force s rv number).2.1 ∈
      init_characters s rv :: (List.range number).map (saCandidate trans force s rv) ∧
    (∀ x ∈ init_characters s rv ::
        (List.range number).map (saCandidate trans force s rv),
      get_score x ≤ get_score (saSeq trans force s rv number).2.1) ∧
    simulated_annealing s number startTemp endTmp rv trans draws =
      (saSeq trans (saForce startTemp endTmp number draws) s rv number).2.1 := by
  obtain ⟨-, hb, hmem, hmax⟩ := sa_inv trans force s rv number
  exact ⟨hb.symm, hmem, fun x hx => by rw [← hb]; exact hmax x hx, rfl⟩

/-- C7 witness: concrete oracles (identity-like perturbations, all-false
acceptance draws); the initial placement's score is bounded by the returned
best state's score. -/
theorem simulated_annealing_returns_best_seen_witness :
    get_score (init_characters SearchMaze.wAuto (fun _ => (0, 0))) ≤
      get_score ((saSeq (fun _ => (0, 0, 0)) (fun _ _ _ => false) SearchMaze.wAuto
        (fun _ => (0, 0)) 1).2.1) :=
  (simulated_annealing_returns_best_seen (fun _ => (0, 0, 0)) (fun _ _ _ => false)
    SearchMaze.wAuto (fun _ => (0, 0)) 1 0 0 (fun _ => 0)).2.2.1
    (init_characters SearchMaze.wAuto (fun _ => (0, 0))) (List.mem_cons_self _ _)

end Section4

namespace Section4

open SearchMaze

/-- C8: in `simulated_annealing` (floating point idealised as the reals),
iteration `i` uses the temperature
`startTemp + (endTmp - startTemp) * (i / number)`; a strictly better
candidate is always accepted, and a not-better candidate is accepted exactly
when `exp((nextScore - nowScore) / temperature)` exceeds the uniform draw of
the iteration. -/
theorem simulated_annealing_acceptance_rule (startTemp endTmp : ℝ) (number : Nat)
    (draws : Nat → ℝ) (trans : Nat → Nat × Nat × Nat) (rv : Nat → Nat × Nat)
    (s : AutoMoveMazeState) (i : Nat) (now : AutoMoveMazeState) (ns : Int)
    (next : AutoMoveMazeState) (xs : Int)
    (hnow : (saSeq trans (saForce startTemp endTmp number draws) s rv i).1 = (now, ns))
    (hnext : next = transitionAt trans i now)
    (hxs : xs = get_score next) :
    (ns < xs →
      (saSeq trans (saForce startTemp endTmp number draws) s rv (i + 1)).1 = (next, xs)) ∧
    (¬ ns < xs →
      Real.exp (((xs : ℝ) - (ns : ℝ)) /
          (startTemp + (endTmp - startTemp) * ((i : ℝ) / (number : ℝ)))) > draws i →
      (saSeq trans (saForce startTemp endTmp number draws) s rv (i + 1)).1 = (next, xs)) ∧
    (¬ ns < xs →
      ¬ Real.exp (((xs : ℝ) - (ns : ℝ)) /
          (startTemp + (endTmp - startTemp) * ((i : ℝ) / (number : ℝ)))) > draws i →
      (saSeq trans (saForce startTemp endTmp number draws) s rv (i + 1)).1 = (now, ns)) := by
  subst hnext
  subst hxs
  have hprob : acceptProbability startTemp endTmp number i ns
      (get_score (transitionAt trans i now)) =
      Real.exp (((get_score (transitionAt trans i now) : ℝ) - (ns : ℝ)) /
        (startTemp + (endTmp - startTemp) * ((i : ℝ) / (number : ℝ)))) := rfl
  refine ⟨?_, ?_, ?_⟩
  · intro h
    simp only [saSeq, saStep, hnow]
    rw [decide_eq_true h, Bool.true_or, if_pos rfl]
  · intro h1 h2
    have hforce : saForce startTemp endTmp number draws i ns
        (get_score (transitionAt trans i now)) = true := by
      unfold saForce
      exact decide_eq_true (by rw [hprob]; exact h2)
    simp only [saSeq, saStep, hnow]
    rw [decide_eq_false h1, hforce]
    rfl
  · intro h1 h2
    have hforce : saForce startTemp endTmp number draws i ns
        (get_score (transitionAt trans i now)) = false := by
      unfold saForce
      exact decide_eq_false (by rw [hprob]; exact h2)
    simp only [saSeq, saStep, hnow]
    rw [decide_eq_false h1, hforce]
    rfl

end Section4

namespace Section4

open SearchMaze

/-- C8 witness: all-9s grid, identity perturbation (`next = now`), constant
temperature 500, draw 2: the candidate is not strictly better and
`exp(0) = 1 ≤ 2`, so the walk keeps `(now, ns)`. -/
theorem simulated_annealing_acceptance_rule_witness :
    (¬ get_score (init_characters SearchMaze.wAuto (fun _ => (0, 0))) <
        get_score (transitionAt (fun _ => (0, 0, 0)) 0
          (init_characters SearchMaze.wAuto (fun _ => (0, 0))))) ∧
    (¬ Real.exp (((get_score (transitionAt (fun _ => (0, 0, 0)) 0
            (init_characters SearchMaze.wAuto (fun _ => (0, 0)))) : ℝ) -
          ((get_score (init_characters SearchMaze.wAuto (fun _ => (0, 0)))) : ℝ)) /
          (500 + (500 - 500) * (((0 : Nat) : ℝ) / ((10 : Nat) : ℝ)))) > 2) ∧
    (saSeq (fun _ => (0, 0, 0)) (saForce 500 500 10 (fun _ => (2 : ℝ)))
        SearchMaze.wAuto (fun _ => (0, 0)) 1).1 =
      (init_characters SearchMaze.wAuto (fun _ => (0, 0)),
        get_score (init_characters SearchMaze.wAuto (fun _ => (0, 0)))) := by
  have h1 : ¬ get_score (init_characters SearchMaze.wAuto (fun _ => (0, 0))) <
      get_score (transitionAt (fun _ => (0, 0, 0)) 0
        (init_characters SearchMaze.wAuto (fun _ => (0, 0)))) := by decide
  have hEq : get_score (transitionAt (fun _ => (0, 0, 0)) 0
      (init_characters SearchMaze.wAuto (fun _ => (0, 0)))) =
      get_score (init_characters SearchMaze.wAuto (fun _ => (0, 0))) := by decide
  have h2 : ¬ Real.exp (((get_score (transitionAt (fun _ => (0, 0, 0)) 0
          (init_characters SearchMaze.wAuto (fun _ => (0, 0)))) : ℝ) -
        ((get_score (init_characters SearchMaze.wAuto (fun _ => (0, 0)))) : ℝ)) /
        (500 + (500 - 500) * (((0 : Nat) : ℝ) / ((10 : Nat) : ℝ)))) > 2 := by
    rw [hEq, sub_self, zero_div, Real.exp_zero]
    norm_num
  exact ⟨h1, h2,
    (simulated_annealing_acceptance_rule 500 500 10 (fun _ => 2) (fun _ => (0, 0, 0))
      (fun _ => (0, 0)) SearchMaze.wAuto 0 _ _ _ _ rfl rfl rfl).2.2 h1 h2⟩

end Section4
